import Mathlib

/-!
Verification of the PSF-map component of the gammapy repository
(`gammapy/irf/psf/psf_map.py` and `gammapy/visualization/utils.py`).

The multi-dimensional map/WCS/units machinery (`gammapy.maps`,
`gammapy.utils.random`, astropy, numpy) is external to the source under
review; where an operation of this repository that decides a claim lives
outside the reviewed files, it is modelled from the specification and the
doc comment says so.  Array data is embedded as lists of rationals
(`List ℚ`); the spatial flattening of pixel grids is immaterial to the
claims, which are about sums, clipping, normalisation, weighting and
index arithmetic.
-/

namespace Gammapy

/-! ## `plot_map_rgb` geometry validation (`visualization/utils.py`)

The geometry of the input map is embedded as the list of the numbers of
bins of its non-spatial axes: `axes[i]` is `geom.axes[i].nbin`. -/

/-- The validation at the top of `plot_map_rgb`:
`if len(geom.axes) != 1 or geom.axes[0].nbin != 3: raise ValueError(...)`.
The Python `or` short-circuits, so `geom.axes[0]` is only read when the
length is exactly 1; `headD` mirrors that. -/
def plot_map_rgb_check (axes : List Nat) : Except String Unit :=
  if axes.length ≠ 1 ∨ axes.headD 0 ≠ 3 then
    Except.error "One non-spatial axis with exactly 3 bins is needed to plot an RGB image"
  else
    Except.ok ()

/-- Whether an `Except` result is an error. -/
def isError {ε α : Type} : Except ε α → Bool
  | Except.error _ => true
  | Except.ok _ => false

/-! ## Region reduction (`PSFMap.to_region_nd_map`)

`Map.to_region_nd_map` itself belongs to `gammapy.maps`, outside the
reviewed source; `PSFMap.to_region_nd_map` calls it with
`func=np.nanmean`.  A map is embedded as the list of its pixel values
and a region as the list of the pixel indices it selects. -/

/-- Modelled from the spec: `Map.to_region_nd_map(region, func=np.nanmean)`
of `gammapy.maps` is not in the reviewed source; the spec describes it as
averaging the response over the spatial region with an unweighted mean.
The region selects pixel indices; the reduced value is the arithmetic
mean of the selected pixel values. -/
def region_reduce (data : List ℚ) (region : List Nat) : ℚ :=
  (region.map (fun i => data.getD i 0)).sum / region.length

/-- Direct evaluation of a map at one pixel. -/
def evaluate_at (data : List ℚ) (i : Nat) : ℚ :=
  data.getD i 0

/-- The method `PSFMap.to_region_nd_map`: the PSF map and (when present) the exposure
map are each reduced over the region with the unweighted mean
(`func=np.nanmean`); the exposure never enters the PSF reduction
(the source carries a `TODO: compute an exposure weighted mean PSF here`). -/
def to_region_nd_map (psf_data : List ℚ) (exposure_data : Option (List ℚ))
    (region : List Nat) : ℚ × Option ℚ :=
  (region_reduce psf_data region, exposure_data.map (fun e => region_reduce e region))

/-! ## Containment radius (`PSFMap.containment_radius`)

`PSFMap.containment_radius` delegates to `PSF.containment_radius` of
`gammapy/irf/psf/core.py`, which is not among the reviewed files, so the
inversion of the cumulative response is modelled from the spec.  At a
fixed position/energy the radial response is embedded as the list of the
probability masses of the `rad` bins together with the list of the bin
centers. -/

/-- The cumulative response over the `rad` bins, normalised by the total
mass: entry `k` is the containment fraction enclosed by the first `k + 1`
bins. -/
def cdf_vals (masses : List ℚ) : List ℚ :=
  (List.range masses.length).map (fun k => (masses.take (k + 1)).sum / masses.sum)

/-- Index of the first `rad` bin whose cumulative containment reaches the
requested fraction. -/
def rad_index (masses : List ℚ) (fraction : ℚ) : Nat :=
  (cdf_vals masses).findIdx (fun c => decide (fraction ≤ c))

/-- Modelled from the spec: `PSF.containment_radius` of
`gammapy/irf/psf/core.py` is not in the reviewed source; the spec says it
"inverts the cumulative response at a position/energy to find the angular
radius enclosing the given probability fraction; fails if fraction
outside [0,1]".  The radius returned is the center of the first bin whose
cumulative normalised mass reaches the fraction. -/
def containment_radius (centers masses : List ℚ) (fraction : ℚ) : Except String ℚ :=
  if fraction < 0 ∨ 1 < fraction then
    Except.error "Containment fraction must be in the range [0, 1]"
  else
    Except.ok (centers.getD (rad_index masses fraction) 0)

/-! ## PSF kernel (`PSFMap.get_psf_kernel`)

The source interpolates the PSF map on the oversampled grid
(`interp_by_coord`, external), clips with `np.clip(data, 0, np.inf)`,
downsamples with `Map.downsample(factor, preserve_counts=True)` (in
`gammapy.maps`, outside the reviewed files) and wraps the result in
`PSFKernel(kernel_map, normalize=True)` (in `gammapy/irf/psf/kernel.py`,
also outside).  The oversampled kernel image is embedded as the
flattened list of its interpolated pixel values. -/

/-- Splits a list into consecutive blocks of `n` elements (the last block
may be shorter); `to_blocks 0 l = [l]` so every element always lands in
some block. -/
def to_blocks {α : Type} : Nat → List α → List (List α)
  | _, [] => []
  | 0, a :: l => [a :: l]
  | n + 1, a :: l => (a :: l).take (n + 1) :: to_blocks (n + 1) ((a :: l).drop (n + 1))
termination_by _ l => l.length
decreasing_by
  simp only [List.length_drop, List.length_cons]
  omega

/-- The clipping step `np.clip(data, 0, np.inf)`. -/
def clip_nonneg (data : List ℚ) : List ℚ :=
  data.map (fun x => max x 0)

/-- Modelled from the spec: `Map.downsample(factor, preserve_counts=True)`
of `gammapy.maps` is not in the reviewed source; the spec describes a
sum-preserving downsample by the oversampling factor.  Each output pixel
is the sum of a block of `factor * factor` consecutive pixels of the
flattened oversampled grid. -/
def downsample (factor : Nat) (data : List ℚ) : List ℚ :=
  (to_blocks (factor * factor) data).map List.sum

/-- Modelled from the spec: the `PSFKernel(kernel_map, normalize=True)`
constructor of `gammapy/irf/psf/kernel.py` is not in the reviewed source;
the spec says the kernel is normalised so that its total mass is 1, i.e.
each pixel is divided by the total sum. -/
def normalize_kernel (data : List ℚ) : List ℚ :=
  data.map (fun x => x / data.sum)

/-- The method `PSFMap.get_psf_kernel` after interpolation: clip negative values to
zero, downsample by the oversampling factor preserving counts, normalise
the total mass to 1. -/
def get_psf_kernel (interpolated : List ℚ) (factor : Nat) : List ℚ :=
  normalize_kernel (downsample factor (clip_nonneg interpolated))

/-! ## Energy marginalisation (`PSFMap.to_image`)

`to_image` computes `exp_weighed = _map_spectrum_weight(exposure, spectrum)`
(in `gammapy.makers.utils`, outside the reviewed files — it multiplies the
exposure by the spectral weights, so the weighted exposure is taken here
as the input), then
`exposure = exp_weighed.sum_over_axes(["energy_true"])`,
`psf_data = exp_weighed.data * psf_map.data / exposure.data` and
`psf = psf_map.sum_over_axes(["energy_true"])`.  At one spatial pixel the
weighted exposure and the PSF are lists over the `energy_true` bins. -/

/-- The method `PSFMap.to_image` at one spatial pixel: each energy slice of the PSF
is multiplied by the spectrum-weighted exposure and divided by the summed
weighted exposure, then the energy axis is summed over. -/
def to_image (weighted_exposure psf : List ℚ) : ℚ :=
  ((weighted_exposure.zip psf).map
    (fun q => q.1 * q.2 / weighted_exposure.sum)).sum

/-- The normalised per-energy weights implied by `to_image`: the weighted
exposure divided by its sum. -/
def energy_weights (weighted_exposure : List ℚ) : List ℚ :=
  weighted_exposure.map (fun w => w / weighted_exposure.sum)

/-! ## Floating-point special values for the unguarded division of
`to_image`

`to_image` divides by the summed weighted exposure with no guard; numpy
floating arithmetic then produces `inf`/`-inf`/`nan`.  The IEEE-754
special values are modelled algebraically: a value is a finite rational,
`nan`, `inf` or `ninf`, with the numpy semantics for `+`, `*` and `/`. -/

inductive FVal : Type where
  | fin : ℚ → FVal
  | nan : FVal
  | inf : FVal
  | ninf : FVal
deriving DecidableEq, Repr

/-- IEEE addition as performed by numpy: `nan` absorbs, opposite
infinities give `nan`, an infinity absorbs finite values. -/
def FVal.add : FVal → FVal → FVal
  | FVal.fin a, FVal.fin b => FVal.fin (a + b)
  | FVal.nan, _ => FVal.nan
  | _, FVal.nan => FVal.nan
  | FVal.inf, FVal.ninf => FVal.nan
  | FVal.ninf, FVal.inf => FVal.nan
  | FVal.inf, _ => FVal.inf
  | _, FVal.inf => FVal.inf
  | FVal.ninf, _ => FVal.ninf
  | _, FVal.ninf => FVal.ninf

/-- IEEE multiplication as performed by numpy: `nan` absorbs,
`0 * inf = nan`, otherwise signs combine. -/
def FVal.mul : FVal → FVal → FVal
  | FVal.fin a, FVal.fin b => FVal.fin (a * b)
  | FVal.nan, _ => FVal.nan
  | _, FVal.nan => FVal.nan
  | FVal.fin a, FVal.inf => if a = 0 then FVal.nan else if 0 < a then FVal.inf else FVal.ninf
  | FVal.fin a, FVal.ninf => if a = 0 then FVal.nan else if 0 < a then FVal.ninf else FVal.inf
  | FVal.inf, FVal.fin b => if b = 0 then FVal.nan else if 0 < b then FVal.inf else FVal.ninf
  | FVal.ninf, FVal.fin b => if b = 0 then FVal.nan else if 0 < b then FVal.ninf else FVal.inf
  | FVal.inf, FVal.inf => FVal.inf
  | FVal.inf, FVal.ninf => FVal.ninf
  | FVal.ninf, FVal.inf => FVal.ninf
  | FVal.ninf, FVal.ninf => FVal.inf

/-- IEEE division as performed by numpy: `0 / 0 = nan`, a nonzero finite
value divided by `0` gives a signed infinity, a finite value divided by an
infinity gives `0`, an infinity divided by an infinity gives `nan`. -/
def FVal.div : FVal → FVal → FVal
  | FVal.fin a, FVal.fin b =>
      if b = 0 then
        if a = 0 then FVal.nan else if 0 < a then FVal.inf else FVal.ninf
      else FVal.fin (a / b)
  | FVal.nan, _ => FVal.nan
  | _, FVal.nan => FVal.nan
  | FVal.fin _, FVal.inf => FVal.fin 0
  | FVal.fin _, FVal.ninf => FVal.fin 0
  | FVal.inf, FVal.fin b => if 0 ≤ b then FVal.inf else FVal.ninf
  | FVal.ninf, FVal.fin b => if 0 ≤ b then FVal.ninf else FVal.inf
  | _, FVal.inf => FVal.nan
  | _, FVal.ninf => FVal.nan

/-- Whether a floating value is finite (neither `nan` nor an infinity). -/
def FVal.isFinite : FVal → Bool
  | FVal.fin _ => true
  | _ => false

/-- numpy summation over a list of floating values. -/
def fsum (l : List FVal) : FVal :=
  l.foldr FVal.add (FVal.fin 0)

/-- The method `PSFMap.to_image` at one spatial pixel over floating values, exactly
as the source computes it: `exp_weighed.data * psf_map.data /
exposure.data` summed over the energy axis, the divisor being the
unguarded sum of the weighted exposure. -/
def to_image_float (weighted_exposure psf : List FVal) : FVal :=
  fsum ((weighted_exposure.zip psf).map
    (fun q => FVal.div (FVal.mul q.1 q.2) (fsum weighted_exposure)))

/-! ## Event offset sampling (`PSFMap.sample_coord`)

The source draws, per event, a `rad` bin via
`InverseCDFSampler(pdf, axis=1, random_state).sample_axis()` on
`pdf = interp_by_coord(coord) * rad_axis.center * rad_axis.bin_width`,
then `position_angle = random_state.uniform(360, size=n) * u.deg`, and
displaces each sky position with the astropy `directional_offset_by`.
The interpolated PSF density and the great-circle displacement are
external (astropy / `gammapy.maps`) and enter as function parameters;
the reproducible random generator of `gammapy.utils.random` is modelled
by a deterministic congruential stream derived from the integer seed. -/

/-- A sequence of event coordinates: parallel lists of longitudes,
latitudes and true energies (the `MapCoord` of the source). -/
structure MapCoordE : Type where
  lon : List ℚ
  lat : List ℚ
  energy : List ℚ
deriving DecidableEq, Repr

/-- The `rad` axis: bin centers and bin widths. -/
structure RadAxis : Type where
  centers : List ℚ
  widths : List ℚ
deriving DecidableEq, Repr

/-- One step of a 64-bit linear congruential generator. -/
def lcg_next (s : Nat) : Nat :=
  (6364136223846793005 * s + 1442695040888963407) % 18446744073709551616

/-- Modelled from the spec: `get_random_state` of `gammapy.utils.random`
is not in the reviewed source; the spec says the random-number utility
"supplies a reproducible random generator from a seed".  Draw `k` of the
stream seeded with `seed` is a rational in `[0, 1)`, fully determined by
the seed. -/
def rng_stream (seed k : Nat) : ℚ :=
  ((lcg_next^[k + 1] seed : Nat) : ℚ) / 18446744073709551616

/-- The discrete probability mass of the source:
`pdf = interp_by_coord(coord) * rad_axis.center.value * rad_axis.bin_width.value`,
one entry per `rad` bin, for one event at a given energy.  `interp` is
the external interpolation of the PSF map, a function of
(lon, lat, energy, rad). -/
def event_pdf (interp : ℚ → ℚ → ℚ → ℚ → ℚ) (lon lat energy : ℚ)
    (axis : RadAxis) : List ℚ :=
  (axis.centers.zip axis.widths).map
    (fun cw => interp lon lat energy cw.1 * cw.1 * cw.2)

/-- Modelled from the spec: `InverseCDFSampler.sample_axis` of
`gammapy.utils.random` is not in the reviewed source; the spec says a bin
index is drawn "via inverse-CDF sampling": the index of the first bin
whose normalised cumulative mass reaches the uniform draw `u`. -/
def inverse_cdf_sample (pdf : List ℚ) (u : ℚ) : Nat :=
  (cdf_vals pdf).findIdx (fun c => decide (u ≤ c))

/-- The numpy `RandomState.uniform(low, high)` call maps a standard uniform draw
`u ∈ [0, 1)` to `low + (high - low) * u`. -/
def numpy_uniform (low high u : ℚ) : ℚ :=
  low + (high - low) * u

/-- The position angle drawn by the source for one event:
`random_state.uniform(360, size=...)`, i.e. the numpy `uniform` with
`low=360` and the default `high=1.0`, applied to the standard uniform
draw `u`. -/
def position_angle (u : ℚ) : ℚ :=
  numpy_uniform 360 1 u

/-- The method `PSFMap.sample_coord`: for each event draw a `rad` bin by inverse-CDF
sampling of `event_pdf`, convert it to a separation with
`rad_axis.pix_to_coord` (the bin center), draw a position angle with
`random_state.uniform(360, size=n)`, and displace the event position
along the great circle at that angle and separation (`offset_by`, the
external `SkyCoord.directional_offset_by`).  The returned coordinates
carry the new positions and the unchanged input `energy_true` values.
The `n` bin draws precede the `n` angle draws on the random stream, as
in the source. -/
def sample_coord (offset_by : ℚ → ℚ → ℚ → ℚ → ℚ × ℚ)
    (interp : ℚ → ℚ → ℚ → ℚ → ℚ) (axis : RadAxis)
    (mc : MapCoordE) (seed : Nat) : MapCoordE :=
  let n := mc.lon.length
  let separations := (List.range n).map (fun e =>
    axis.centers.getD
      (inverse_cdf_sample
        (event_pdf interp (mc.lon.getD e 0) (mc.lat.getD e 0) (mc.energy.getD e 0) axis)
        (rng_stream seed e)) 0)
  let angles := (List.range n).map (fun e => position_angle (rng_stream seed (n + e)))
  let positions := (List.range n).map (fun e =>
    offset_by (mc.lon.getD e 0) (mc.lat.getD e 0) (angles.getD e 0) (separations.getD e 0))
  { lon := positions.map Prod.fst
    lat := positions.map Prod.snd
    energy := mc.energy }

/-! ## Theorems -/

/-- C9: `plot_map_rgb` raises a `ValueError` if and only if the input
map geometry does not have exactly one non-spatial axis with exactly
3 bins; any map satisfying that condition passes the check. -/
theorem plot_map_rgb_check_error_iff (axes : List Nat) :
    isError (plot_map_rgb_check axes) = true ↔
      ¬ (axes.length = 1 ∧ axes.headD 0 = 3) := by
  rw [plot_map_rgb_check]
  split
  · next h =>
    simp only [isError, true_iff]
    tauto
  · next h =>
    simp only [isError, Bool.false_eq_true, false_iff, not_not]
    push_neg at h
    exact h

/-- C6: `to_region_nd_map` reduces the PSF map over the region with an
unweighted mean — the PSF component of the result does not depend on the
exposure map — and for a single-pixel region the reduced value equals
direct evaluation of the map at that pixel. -/
theorem to_region_nd_map_mean_spec (psf : List ℚ) (expo expo2 : Option (List ℚ))
    (region : List Nat) (i : Nat) :
    (to_region_nd_map psf expo region).1 = (to_region_nd_map psf expo2 region).1 ∧
    (to_region_nd_map psf expo [i]).1 = evaluate_at psf i := by
  constructor
  · rfl
  · show region_reduce psf [i] = evaluate_at psf i
    simp [region_reduce, evaluate_at]

/-- C7: `containment_radius` returns an error, producing no radius,
whenever the requested containment fraction lies outside `[0, 1]`. -/
theorem containment_radius_invalid_fraction (centers masses : List ℚ) (fraction : ℚ)
    (h : fraction < 0 ∨ 1 < fraction) :
    containment_radius centers masses fraction =
      Except.error "Containment fraction must be in the range [0, 1]" := by
  rw [containment_radius, if_pos h]

/-- C7 witness: the fraction 2 exceeds 1 and the call errors out. -/
theorem containment_radius_invalid_fraction_witness :
    ((2 : ℚ) < 0 ∨ 1 < (2 : ℚ)) ∧
    containment_radius [1/10] [1] 2 =
      Except.error "Containment fraction must be in the range [0, 1]" :=
  ⟨Or.inr (by norm_num),
    containment_radius_invalid_fraction [1/10] [1] 2 (Or.inr (by norm_num))⟩

/-- C10: `sample_coord` changes only the sky positions: the `energy_true`
values of the returned coordinates are exactly those of the input,
unchanged in value and order. -/
theorem sample_coord_preserves_energy (offset_by : ℚ → ℚ → ℚ → ℚ → ℚ × ℚ)
    (interp : ℚ → ℚ → ℚ → ℚ → ℚ) (axis : RadAxis) (mc : MapCoordE) (seed : Nat) :
    (sample_coord offset_by interp axis mc seed).energy = mc.energy :=
  rfl

/-- C5: two runs of `sample_coord` on the same PSF map with the same
input coordinates and the same integer seed produce identical output
coordinates. -/
theorem sample_coord_deterministic (offset_by : ℚ → ℚ → ℚ → ℚ → ℚ × ℚ)
    (interp : ℚ → ℚ → ℚ → ℚ → ℚ) (axis : RadAxis) (mc1 mc2 : MapCoordE)
    (s1 s2 : Nat) (hmc : mc1 = mc2) (hs : s1 = s2) :
    sample_coord offset_by interp axis mc1 s1 =
      sample_coord offset_by interp axis mc2 s2 := by
  subst hmc
  subst hs
  rfl

/-- A concrete great-circle displacement stand-in used for evaluation. -/
def offset_by_test (lon lat angle sep : ℚ) : ℚ × ℚ :=
  (lon + sep * angle, lat + sep)

/-- A concrete PSF density stand-in used for evaluation. -/
def interp_test (lon lat energy rad : ℚ) : ℚ :=
  lon + lat + energy + 1 - rad

/-- A concrete `rad` axis used for evaluation. -/
def axis_test : RadAxis :=
  ⟨[1/10, 3/10], [1/5, 1/5]⟩

/-- Concrete event coordinates used for evaluation. -/
def mc_test : MapCoordE :=
  ⟨[0, 1], [0, 2], [5, 7]⟩

/-- C5 witness: determinism applied at concrete inputs with seed 7. -/
theorem sample_coord_deterministic_witness :
    mc_test = mc_test ∧ (7 : Nat) = 7 ∧
    sample_coord offset_by_test interp_test axis_test mc_test 7 =
      sample_coord offset_by_test interp_test axis_test mc_test 7 :=
  ⟨rfl, rfl, sample_coord_deterministic offset_by_test interp_test axis_test
    mc_test mc_test 7 7 rfl rfl⟩

/-- C3: the position angle drawn by `sample_coord` is not uniform in
`[0, 360)` degrees.  The source calls `random_state.uniform(360, size=n)`,
which binds the numpy parameter `low=360` and leaves `high=1.0` at its default, so a
standard uniform draw `u` maps to `360 - 359 * u`: the draw `u = 0`
yields the angle 360 (outside `[0, 360)`), and `u = 1/2` yields 361/2
where a uniform angle in `[0, 360)` would yield 180. -/
theorem position_angle_not_uniform :
    position_angle 0 = 360 ∧ ¬ position_angle 0 < 360 ∧
    position_angle (1/2) = 361/2 ∧ ¬ position_angle (1/2) = 180 := by
  norm_num [position_angle, numpy_uniform]

/-- Concatenating the blocks of a list gives back the list. -/
theorem to_blocks_flatten {α : Type} (n : Nat) (l : List α) :
    (to_blocks n l).flatten = l := by
  induction n, l using to_blocks.induct with
  | case1 n => rw [to_blocks]; rfl
  | case2 a l => rw [to_blocks]; simp
  | case3 n a l ih =>
    rw [to_blocks]
    simp only [List.flatten_cons, ih]
    exact List.take_append_drop _ _

/-- The sum-preserving downsample preserves the total sum exactly. -/
theorem downsample_sum (factor : Nat) (data : List ℚ) :
    (downsample factor data).sum = data.sum := by
  rw [downsample, ← List.sum_flatten, to_blocks_flatten]

/-- Dividing every entry of a list by `s` divides its sum by `s`. -/
theorem list_sum_map_div (l : List ℚ) (s : ℚ) :
    (l.map (fun x => x / s)).sum = l.sum / s := by
  induction l with
  | nil => simp
  | cons a t ih => simp [ih, add_div]

/-- C1: `get_psf_kernel` clips every interpolated value to be
non-negative, the `preserve_counts` downsample keeps the total sum
exactly equal to the sum before downsampling, and — whenever the clipped
kernel has positive total mass — the returned normalised kernel sums to
exactly 1. -/
theorem get_psf_kernel_spec (data : List ℚ) (factor : Nat)
    (h : 0 < (clip_nonneg data).sum) :
    (∀ x ∈ clip_nonneg data, 0 ≤ x) ∧
    (downsample factor (clip_nonneg data)).sum = (clip_nonneg data).sum ∧
    (get_psf_kernel data factor).sum = 1 := by
  refine ⟨?_, downsample_sum _ _, ?_⟩
  · intro x hx
    rw [clip_nonneg, List.mem_map] at hx
    obtain ⟨y, _, rfl⟩ := hx
    exact le_max_right _ _
  · rw [get_psf_kernel, normalize_kernel, list_sum_map_div, downsample_sum, div_self]
    exact ne_of_gt h

/-- C1 witness: the kernel pipeline at the interpolated data
`[1, -1, 3]` with oversampling factor 2. -/
theorem get_psf_kernel_spec_witness :
    0 < (clip_nonneg [1, -1, 3]).sum ∧
    ((∀ x ∈ clip_nonneg [1, -1, 3], (0 : ℚ) ≤ x) ∧
     (downsample 2 (clip_nonneg [1, -1, 3])).sum = (clip_nonneg [1, -1, 3]).sum ∧
     (get_psf_kernel [1, -1, 3] 2).sum = 1) :=
  ⟨by norm_num [clip_nonneg], get_psf_kernel_spec [1, -1, 3] 2 (by norm_num [clip_nonneg])⟩

/-- C2: `to_image` is the convex combination of the per-energy PSF
slices with the normalised exposure weights: when the weighted exposure
is non-negative with positive sum, `to_image` equals the weighted sum of
the slices, the weights are non-negative and they sum to exactly 1. -/
theorem to_image_convex_combination (w p : List ℚ)
    (hw : ∀ x ∈ w, 0 ≤ x) (hs : 0 < w.sum) :
    to_image w p = (((energy_weights w).zip p).map (fun q => q.1 * q.2)).sum ∧
    (∀ x ∈ energy_weights w, 0 ≤ x) ∧
    (energy_weights w).sum = 1 := by
  refine ⟨?_, ?_, ?_⟩
  · rw [to_image, energy_weights, List.zip_map_left, List.map_map]
    congr 1
    apply List.map_congr_left
    intro a _
    cases a with
    | mk x y => simp [Prod.map, mul_div_right_comm]
  · intro x hx
    rw [energy_weights, List.mem_map] at hx
    obtain ⟨y, hy, rfl⟩ := hx
    exact div_nonneg (hw y hy) (le_of_lt hs)
  · rw [energy_weights, list_sum_map_div, div_self (ne_of_gt hs)]

/-- C2 witness: the energy marginalisation at weighted exposure `[1, 3]`
and PSF slices `[2, 2]`. -/
theorem to_image_convex_combination_witness :
    (∀ x ∈ [(1 : ℚ), 3], 0 ≤ x) ∧ 0 < List.sum [(1 : ℚ), 3] ∧
    (to_image [1, 3] [2, 2] =
        (((energy_weights [1, 3]).zip [2, 2]).map (fun q => q.1 * q.2)).sum ∧
      (∀ x ∈ energy_weights [1, 3], 0 ≤ x) ∧
      (energy_weights [1, 3]).sum = 1) :=
  ⟨by norm_num, by norm_num,
    to_image_convex_combination [1, 3] [2, 2] (by norm_num) (by norm_num)⟩

/-- The function `List.findIdx` is antitone in the strength of the predicate: a weaker
predicate is satisfied no later. -/
theorem findIdx_mono_of_imp {α : Type} (l : List α) (p q : α → Bool)
    (h : ∀ a, q a = true → p a = true) :
    l.findIdx p ≤ l.findIdx q := by
  induction l with
  | nil => exact Nat.le_refl _
  | cons a t ih =>
    rw [List.findIdx_cons, List.findIdx_cons]
    by_cases hp : p a = true
    · simp [hp]
    · have hq : q a = false := by
        cases hqa : q a
        · rfl
        · exact absurd (h a hqa) hp
      rw [Bool.not_eq_true] at hp
      simp only [hp, hq, cond_false]
      exact Nat.succ_le_succ ih

/-- The cumulative-response list has one entry per `rad` bin. -/
theorem cdf_vals_length (masses : List ℚ) :
    (cdf_vals masses).length = masses.length := by
  simp [cdf_vals]

/-- With positive total mass, the cumulative response reaches exactly 1
at the last bin. -/
theorem one_mem_cdf_vals (masses : List ℚ) (hpos : 0 < masses.sum) :
    (1 : ℚ) ∈ cdf_vals masses := by
  have hne : masses ≠ [] := by
    intro h
    rw [h] at hpos
    simp at hpos
  have hlen : 0 < masses.length := List.length_pos.mpr hne
  rw [cdf_vals, List.mem_map]
  refine ⟨masses.length - 1, List.mem_range.mpr (by omega), ?_⟩
  have hsucc : masses.length - 1 + 1 = masses.length := by omega
  rw [hsucc, List.take_length, div_self (ne_of_gt hpos)]

/-- C4: the containment radius is monotonically non-decreasing in the
containment fraction — for fractions `f1 ≤ f2` in `(0, 1)` at a fixed
position/energy (fixed radial masses and sorted bin centers, with
positive total mass), both calls succeed and the radius for `f1` does not
exceed the radius for `f2`. -/
theorem containment_radius_mono (centers masses : List ℚ) (f1 f2 : ℚ)
    (hsorted : centers.Sorted (· ≤ ·))
    (hlen : centers.length = masses.length)
    (hpos : 0 < masses.sum)
    (h0 : 0 < f1) (h12 : f1 ≤ f2) (h1 : f2 < 1) :
    ∃ r1 r2, containment_radius centers masses f1 = Except.ok r1 ∧
      containment_radius centers masses f2 = Except.ok r2 ∧ r1 ≤ r2 := by
  have hc1 : ¬ (f1 < 0 ∨ 1 < f1) := by
    push_neg
    constructor <;> linarith
  have hc2 : ¬ (f2 < 0 ∨ 1 < f2) := by
    push_neg
    constructor <;> linarith
  refine ⟨_, _, by rw [containment_radius, if_neg hc1], by rw [containment_radius, if_neg hc2], ?_⟩
  have hmono : rad_index masses f1 ≤ rad_index masses f2 := by
    apply findIdx_mono_of_imp
    intro a ha
    rw [decide_eq_true_eq] at ha ⊢
    linarith
  have hlt2 : rad_index masses f2 < centers.length := by
    rw [hlen, ← cdf_vals_length masses]
    apply List.findIdx_lt_length_of_exists
    exact ⟨1, one_mem_cdf_vals masses hpos, by rw [decide_eq_true_eq]; linarith⟩
  have hlt1 : rad_index masses f1 < centers.length := lt_of_le_of_lt hmono hlt2
  rw [List.getD_eq_getElem centers 0 hlt1, List.getD_eq_getElem centers 0 hlt2]
  rcases Nat.lt_or_ge (rad_index masses f1) (rad_index masses f2) with hlt | hge
  · exact (List.pairwise_iff_getElem.mp hsorted) _ _ hlt1 hlt2 hlt
  · have heq : rad_index masses f1 = rad_index masses f2 := Nat.le_antisymm hmono hge
    simp [heq]

/-- C4 witness: monotonicity at centers `[1/10, 3/10]`, masses `[3, 1]`
and fractions `1/2 ≤ 9/10`. -/
theorem containment_radius_mono_witness :
    List.Sorted (· ≤ ·) [(1 : ℚ)/10, 3/10] ∧
    List.length [(1 : ℚ)/10, 3/10] = List.length [(3 : ℚ), 1] ∧
    0 < List.sum [(3 : ℚ), 1] ∧
    0 < (1 : ℚ)/2 ∧ (1 : ℚ)/2 ≤ 9/10 ∧ (9 : ℚ)/10 < 1 ∧
    (∃ r1 r2, containment_radius [(1 : ℚ)/10, 3/10] [3, 1] (1/2) = Except.ok r1 ∧
      containment_radius [(1 : ℚ)/10, 3/10] [3, 1] (9/10) = Except.ok r2 ∧ r1 ≤ r2) :=
  ⟨by norm_num [List.sorted_cons], by decide, by norm_num, by norm_num, by norm_num, by norm_num,
    containment_radius_mono [(1 : ℚ)/10, 3/10] [3, 1] (1/2) (9/10)
      (by norm_num [List.sorted_cons]) (by decide) (by norm_num) (by norm_num) (by norm_num) (by norm_num)⟩

/-- Adding a non-finite floating value to anything is non-finite. -/
theorem fval_add_nonfinite (x y : FVal)
    (h : x.isFinite = false ∨ y.isFinite = false) :
    (FVal.add x y).isFinite = false := by
  cases x <;> cases y <;> simp_all [FVal.add, FVal.isFinite]

/-- A floating sum over a list containing a non-finite value is
non-finite. -/
theorem fsum_nonfinite (l : List FVal) (h : ∃ x ∈ l, x.isFinite = false) :
    (fsum l).isFinite = false := by
  induction l with
  | nil => simp at h
  | cons a t ih =>
    obtain ⟨x, hx, hxf⟩ := h
    rw [List.mem_cons] at hx
    show (FVal.add a (fsum t)).isFinite = false
    rcases hx with rfl | hx
    · exact fval_add_nonfinite _ _ (Or.inl hxf)
    · exact fval_add_nonfinite _ _ (Or.inr (ih ⟨x, hx, hxf⟩))

/-- A non-finite floating value is `nan`, `inf` or `ninf`. -/
theorem fval_not_finite_cases (x : FVal) (h : x.isFinite = false) :
    x = FVal.nan ∨ x = FVal.inf ∨ x = FVal.ninf := by
  cases x <;> simp_all [FVal.isFinite]

/-- Dividing a finite floating value by floating zero is non-finite. -/
theorem fval_div_fin_zero (a : ℚ) :
    ((FVal.fin a).div (FVal.fin 0)).isFinite = false := by
  rw [FVal.div]
  simp only [if_pos rfl]
  by_cases ha : a = 0
  · simp [ha, FVal.isFinite]
  · by_cases ha2 : 0 < a <;> simp [ha, ha2, FVal.isFinite]

/-- C8: when the summed weighted exposure at a pixel is (floating) zero,
`to_image` performs the unguarded division anyway — the model is a total
function, mirroring the absence of any exception path in the source —
and the value propagated into the returned PSF data is `nan`, `inf` or
`-inf`. -/
theorem to_image_float_zero_exposure (w p : List FVal)
    (hw : ∀ x ∈ w, x.isFinite = true) (hp : ∀ x ∈ p, x.isFinite = true)
    (hnw : w ≠ []) (hnp : p ≠ [])
    (hz : fsum w = FVal.fin 0) :
    to_image_float w p = FVal.nan ∨ to_image_float w p = FVal.inf ∨
      to_image_float w p = FVal.ninf := by
  apply fval_not_finite_cases
  rw [to_image_float]
  apply fsum_nonfinite
  obtain ⟨a, w2, rfl⟩ := List.exists_cons_of_ne_nil hnw
  obtain ⟨b, p2, rfl⟩ := List.exists_cons_of_ne_nil hnp
  refine ⟨FVal.div (FVal.mul a b) (fsum (a :: w2)), ?_, ?_⟩
  · exact List.mem_map.mpr ⟨(a, b), by simp [List.zip_cons_cons], rfl⟩
  · obtain ⟨qa, rfl⟩ : ∃ q, a = FVal.fin q := by
      have := hw a (List.mem_cons_self a w2)
      cases a <;> simp_all [FVal.isFinite]
    obtain ⟨qb, rfl⟩ : ∃ q, b = FVal.fin q := by
      have := hp b (List.mem_cons_self b p2)
      cases b <;> simp_all [FVal.isFinite]
    rw [hz, FVal.mul]
    exact fval_div_fin_zero _

/-- C8 witness: weighted exposure `[1, -1]` sums to floating zero; the
division yields `inf` and `-inf` terms whose sum is `nan`. -/
theorem to_image_float_zero_exposure_witness :
    (∀ x ∈ [FVal.fin 1, FVal.fin (-1)], x.isFinite = true) ∧
    (∀ x ∈ [FVal.fin 2, FVal.fin 3], x.isFinite = true) ∧
    fsum [FVal.fin 1, FVal.fin (-1)] = FVal.fin 0 ∧
    (to_image_float [FVal.fin 1, FVal.fin (-1)] [FVal.fin 2, FVal.fin 3] = FVal.nan ∨
      to_image_float [FVal.fin 1, FVal.fin (-1)] [FVal.fin 2, FVal.fin 3] = FVal.inf ∨
      to_image_float [FVal.fin 1, FVal.fin (-1)] [FVal.fin 2, FVal.fin 3] = FVal.ninf) :=
  ⟨by intro x hx; fin_cases hx <;> rfl,
   by intro x hx; fin_cases hx <;> rfl,
   by show FVal.add (FVal.fin 1) (FVal.add (FVal.fin (-1)) (FVal.fin 0)) = FVal.fin 0
      rw [FVal.add, FVal.add]
      norm_num,
   to_image_float_zero_exposure [FVal.fin 1, FVal.fin (-1)] [FVal.fin 2, FVal.fin 3]
     (by intro x hx; fin_cases hx <;> rfl)
     (by intro x hx; fin_cases hx <;> rfl)
     (by simp) (by simp)
     (by show FVal.add (FVal.fin 1) (FVal.add (FVal.fin (-1)) (FVal.fin 0)) = FVal.fin 0
         rw [FVal.add, FVal.add]
         norm_num)⟩

end Gammapy
